import Mathlib

/-!
Verification of the Erigon state Aggregator (erigon-lib state aggregator)
against its natural-language specification.

The Go source is shallowly embedded: machine integers (uint64) become `Nat`
with explicit reduction modulo `2 ^ 64` where overflow matters, fallible Go
functions become `Except`/`Option`-returning Lean functions, and the file
system / opaque subcomponents become explicit parameters (function-valued
fields of a state record).
-/

namespace Erigon

/-- Go `uint64` subtraction `a - b` (two's complement wraparound). -/
def goSub64 (a b : Nat) : Nat :=
  (2 ^ 64 + a % 2 ^ 64 - b % 2 ^ 64) % 2 ^ 64

/-- The four state domains of the aggregator, `kv.Domain`
(`kv.AccountsDomain`, `kv.StorageDomain`, `kv.CodeDomain`,
`kv.CommitmentDomain`). -/
inductive Domain where
  | accounts
  | storage
  | code
  | commitment
deriving DecidableEq, Repr

/-- The four standalone inverted-index positions, `kv.InvertedIdxPos`. -/
inductive IIPos where
  | logAddrIdxPos
  | logTopicIdxPos
  | tracesFromIdxPos
  | tracesToIdxPos
deriving DecidableEq, Repr

/-! ## C4: the integrity check installed by `NewAggregator` -/

/-- Path of the Commitment domain's v1 `.kv` file for steps
`[fromStep, toStep)` as built by the `commitmentFileMustExist` closure in
`NewAggregator` (`filepath.Join(dirs.SnapDomain, fmt.Sprintf("v1-%s.%d-%d.kv",
kv.CommitmentDomain, fromStep, toStep))`); the directory component is
immaterial to the claims and is dropped. -/
def commitmentKvFilePath (fromStep toStep : Nat) : String :=
  "v1-commitment." ++ toString fromStep ++ "-" ++ toString toStep ++ ".kv"

/-- `commitmentFileMustExist` closure from `NewAggregator`: checks that the
Commitment domain's `.kv` file for exactly the given step range exists on
disk (`disk` is the file-existence predicate of the snapshot directory). -/
def commitmentFileMustExist (disk : String → Bool) (fromStep toStep : Nat) : Bool :=
  disk (commitmentKvFilePath fromStep toStep)

/-- The `integrityCheck` closure installed by `NewAggregator`: for the
Accounts/Storage/Code domains a file spanning more than one step is trusted;
a file spanning at most one step is trusted iff the matching Commitment
`.kv` file exists; every other domain (Commitment) is trusted
unconditionally. Subtraction is Go `uint64` subtraction. -/
def integrityCheck (disk : String → Bool) (name : Domain) (fromStep toStep : Nat) : Bool :=
  match name with
  | .accounts | .storage | .code =>
    if 1 < goSub64 toStep fromStep then true
    else commitmentFileMustExist disk fromStep toStep
  | .commitment => true

/-! ## C9: `AggregatorRoTx.IndexRange` routing -/

/-- `kv.InvertedIdx` names accepted by `AggregatorRoTx.IndexRange`; the
`unknown` constructor stands for any string outside the recognised set
(Go `kv.InvertedIdx` is a string type). -/
inductive InvertedIdx where
  | accountsHistoryIdx
  | storageHistoryIdx
  | codeHistoryIdx
  | commitmentHistoryIdx
  | logTopicIdx
  | logAddrIdx
  | tracesFromIdx
  | tracesToIdx
  | unknown (s : String)
deriving DecidableEq, Repr

/-- Arguments of one `IdxRange` query: key, bounds, order and limit
(`k []byte, fromTs, toTs int, asc order.By, limit int`). -/
structure IdxQueryArgs where
  k : List Nat
  fromTs : Int
  toTs : Int
  asc : Bool
  limit : Int
deriving DecidableEq, Repr

/-- The read-only components an `AggregatorRoTx` routes `IndexRange` queries
to: `ac.d[domain].ht.IdxRange` for each domain`s history and
`ac.iis[pos].IdxRange` for each standalone inverted index. The iterator
result type is abstracted as `τ`. -/
structure AggIdxComponents (τ : Type) where
  dHtIdxRange : Domain → IdxQueryArgs → τ
  iisIdxRange : IIPos → IdxQueryArgs → τ

/-- `AggregatorRoTx.IndexRange`: dispatches on the index name;
`kv.CommitmentHistoryIdx` is answered by the Storage domain's history index,
and an unrecognised name yields an error. -/
def IndexRange (ac : AggIdxComponents τ) (name : InvertedIdx) (q : IdxQueryArgs) :
    Except String τ :=
  match name with
  | .accountsHistoryIdx => .ok (ac.dHtIdxRange .accounts q)
  | .storageHistoryIdx => .ok (ac.dHtIdxRange .storage q)
  | .codeHistoryIdx => .ok (ac.dHtIdxRange .code q)
  | .commitmentHistoryIdx => .ok (ac.dHtIdxRange .storage q)
  | .logTopicIdx => .ok (ac.iisIdxRange .logTopicIdxPos q)
  | .logAddrIdx => .ok (ac.iisIdxRange .logAddrIdxPos q)
  | .tracesFromIdx => .ok (ac.iisIdxRange .tracesFromIdxPos q)
  | .tracesToIdx => .ok (ac.iisIdxRange .tracesToIdxPos q)
  | .unknown s => .error ("unexpected history name: " ++ s)

/-! ## C10: `AggregatorRoTx.DomainGetAsOf` -/

/-- The per-domain `GetAsOf` lookups of an `AggregatorRoTx`
(`ac.d[name].GetAsOf(key, ts, tx)`), abstracted as a function returning the
resolved value (`none` = Go `nil` slice) and a possible error. -/
structure DomainReadComponents where
  getAsOf : Domain → List Nat → Nat → Option (List Nat) × Option String

/-- `AggregatorRoTx.DomainGetAsOf`: forwards to the domain's `GetAsOf` and
reports `ok := (v != nil)`. -/
def DomainGetAsOf (st : DomainReadComponents) (name : Domain) (key : List Nat) (ts : Nat) :
    Option (List Nat) × Bool × Option String :=
  let r := st.getAsOf name key ts
  (r.1, r.1.isSome, r.2)

/-! ## C8: `AggregatorRoTx.Close` -/

/-- The closable handle state of one `AggregatorRoTx`: whether `ac.a` is
still set, and per-component close counters (`d` entries may be Go-`nil`,
modelled by `none`; `iis` and `appendable` handles are always present). -/
structure AggRoTxHandles where
  aOpen : Bool
  d : List (Option Nat)
  iis : List Nat
  appendable : List Nat
deriving DecidableEq, Repr

/-- `AggregatorRoTx.Close`: a `nil` receiver or one whose `a` field is
already `nil` returns immediately; otherwise `a` is cleared and every
non-nil domain handle and every inverted-index and appendable handle is
closed (its close counter incremented) once. -/
def AggRoTxClose : Option AggRoTxHandles → Option AggRoTxHandles
  | none => none
  | some ac =>
    if ac.aOpen = false then some ac
    else
      some { aOpen := false
             d := ac.d.map (fun h => h.map (· + 1))
             iis := ac.iis.map (· + 1)
             appendable := ac.appendable.map (· + 1) }

/-! ## C6: prune batch-size tuning in `PruneSmallBatches` /
`PruneSmallBatchesDb` -/

/-- One Go `time.Second` in nanoseconds (`time.Duration` units). -/
def goSecond : Nat := 1000000000

/-- One Go `time.Minute` in nanoseconds. -/
def goMinute : Nat := 60 * goSecond

/-- One Go `time.Hour` in nanoseconds. -/
def goHour : Nat := 60 * goMinute

/-- The 30-second `logPeriod` of both prune drivers. -/
def logPeriod : Nat := 30 * goSecond

/-- `furiousPrune := timeout > 5*time.Hour` (both drivers). -/
def furiousPrune (timeout : Nat) : Bool := decide (5 * goHour < timeout)

/-- `aggressivePrune := !furiousPrune && timeout >= 1*time.Minute`
(both drivers). -/
def aggressivePrune (timeout : Nat) : Bool :=
  !furiousPrune timeout && decide (goMinute ≤ timeout)

/-- Initial `pruneLimit` of `PruneSmallBatchesDb`: 1,000, or 1,000,000 in
furious mode. -/
def initialPruneLimitDb (timeout : Nat) : Nat :=
  if furiousPrune timeout then 1000000 else 1000

/-- Initial `pruneLimit` of `PruneSmallBatches`: 1,000, or 1,000,000 in
furious mode. -/
def initialPruneLimit (timeout : Nat) : Nat :=
  if furiousPrune timeout then 1000000 else 1000

/-- Per-iteration `pruneLimit` update of `PruneSmallBatchesDb` (`took` is
the iteration's wall-clock duration in nanoseconds): in aggressive mode the
limit is multiplied by 10 (uint64 wraparound) when the iteration took under
2 seconds and divided by 10 when it took longer than `logPeriod`; otherwise
it is unchanged. -/
def pruneLimitStepDb (timeout pruneLimit took : Nat) : Nat :=
  if aggressivePrune timeout then
    let l1 := if took < 2 * goSecond then pruneLimit * 10 % 2 ^ 64 else pruneLimit
    if logPeriod < took then l1 / 10 else l1
  else pruneLimit

/-- Per-iteration `pruneLimit` update of `PruneSmallBatches`; textually the
same adjustment as in `PruneSmallBatchesDb`. -/
def pruneLimitStep (timeout pruneLimit took : Nat) : Nat :=
  if aggressivePrune timeout then
    let l1 := if took < 2 * goSecond then pruneLimit * 10 % 2 ^ 64 else pruneLimit
    if logPeriod < took then l1 / 10 else l1
  else pruneLimit

/-! ## C7: `getStateIndicesSalt` and its use in `NewAggregator` -/

/-- A snapshot-directory file system: an association list from paths to byte
contents. -/
def FSState : Type := List (String × List Nat)

/-- Look a path up in the file system. -/
def fsLookup : FSState → String → Option (List Nat)
  | [], _ => none
  | (q, bs) :: rest, p => if q = p then some bs else fsLookup rest p

/-- Overwrite (or create) a file. -/
def fsWrite (fs : FSState) (p : String) (bs : List Nat) : FSState :=
  (p, bs) :: fs.filter (fun e => !(e.1 == p))

/-- `os.Rename`: move `src` over `dst`; a missing source leaves the file
system unchanged (the call errors, and `getStateIndicesSalt` ignores that
error). -/
def fsRename (fs : FSState) (src dst : String) : FSState :=
  match fsLookup fs src with
  | none => fs
  | some bs => fsWrite (fs.filter (fun e => !(e.1 == src))) dst bs

/-- Fault injection for the file-system calls made by
`getStateIndicesSalt`, one flag per call site (three `dir.FileExist` calls,
the legacy `os.Rename`, `dir.WriteFileWithFsync`, `os.ReadFile`). -/
structure FSFaults where
  exist1Fail : Bool
  exist2Fail : Bool
  exist3Fail : Bool
  renameFail : Bool
  writeFail : Bool
  readFail : Bool
deriving DecidableEq, Repr

/-- The fault-free file system. -/
def noFaults : FSFaults := ⟨false, false, false, false, false, false⟩

/-- Errors surfaced by `getStateIndicesSalt`; `shortRead` models the Go
panic inside `binary.BigEndian.Uint32` on a file shorter than 4 bytes. -/
inductive FsErr where
  | existErr
  | writeErr
  | readErr
  | shortRead
deriving DecidableEq, Repr

/-- Big-endian decoding of the first 4 bytes, `binary.BigEndian.Uint32`
(`none` when fewer than 4 bytes are present — the Go code would panic). -/
def be4 : List Nat → Option Nat
  | b0 :: b1 :: b2 :: b3 :: _ =>
    some (b0 * 2 ^ 24 + b1 * 2 ^ 16 + b2 * 2 ^ 8 + b3)
  | _ => none

/-- Big-endian encoding of a uint32, `binary.BigEndian.PutUint32`. -/
def be4Bytes (n : Nat) : List Nat :=
  let m := n % 2 ^ 32
  [m / 2 ^ 24 % 256, m / 2 ^ 16 % 256, m / 2 ^ 8 % 256, m % 256]

/-- `<baseDir>/salt.txt`, the legacy salt path. -/
def saltTxtPath (baseDir : String) : String := baseDir ++ "/salt.txt"

/-- `<baseDir>/salt-state.txt`, the state-salt path. -/
def saltStatePath (baseDir : String) : String := baseDir ++ "/salt-state.txt"

/-- `getStateIndicesSalt(baseDir)`: checks for a legacy `salt.txt` and for
`salt-state.txt` (each check can fail), renames the legacy file into place
when only it exists (ignoring a rename failure), creates the salt file with
a freshly generated 4-byte big-endian salt when no file exists (fsynced
write, failure aborts), then reads the file back and returns the big-endian
uint32 of its first 4 bytes. `randSalt` stands for the `rand2.Uint32()`
draw. -/
def getStateIndicesSalt (flt : FSFaults) (baseDir : String) (randSalt : Nat)
    (fs : FSState) : Except FsErr (Nat × FSState) :=
  if flt.exist1Fail then .error .existErr else
  let saltExists := (fsLookup fs (saltTxtPath baseDir)).isSome
  if flt.exist2Fail then .error .existErr else
  let saltStateExists := (fsLookup fs (saltStatePath baseDir)).isSome
  let fs1 := if saltExists && !saltStateExists && !flt.renameFail
    then fsRename fs (saltTxtPath baseDir) (saltStatePath baseDir) else fs
  if flt.exist3Fail then .error .existErr else
  let fexists := (fsLookup fs1 (saltStatePath baseDir)).isSome
  if !fexists && flt.writeFail then .error .writeErr else
  let fs2 := if fexists then fs1
    else fsWrite fs1 (saltStatePath baseDir) (be4Bytes randSalt)
  if flt.readFail then .error .readErr else
  match fsLookup fs2 (saltStatePath baseDir) with
  | none => .error .readErr
  | some bs =>
    match be4 bs with
    | none => .error .shortRead
    | some v => .ok (v, fs2)

/-- The salt acquisition step of `NewAggregator`: `salt, err :=
getStateIndicesSalt(dirs.Snap); if err != nil { return nil, err }`; `rest`
stands for the remainder of the constructor, which only runs on success. -/
def newAggregatorSaltStep (flt : FSFaults) (baseDir : String) (randSalt : Nat)
    (fs : FSState) (rest : Nat → FSState → Except FsErr α) : Except FsErr α :=
  match getStateIndicesSalt flt baseDir randSalt fs with
  | .error e => .error e
  | .ok (salt, fs2) => rest salt fs2

/-! ## C2: `AggregatorRoTx.Prune` -/

/-- The prune-relevant view of one domain inside an `AggregatorRoTx`:
the end txNum of its visible files (`ac.d[d].files.EndTxNum()`), its
`CanPruneUntil` answer, and its `Prune` method. `prune step txFrom txTo
limit` returns the txNums of the hot-store rows it removes (or an error);
its body lives outside this repository. -/
structure DomainPruneView where
  filesEndTxNum : Nat
  canPruneUntil : Nat → Bool
  prune : Nat → Nat → Nat → Nat → Except String (List Nat)

/-- The prune-relevant view of one standalone inverted index
(`ac.iis[i]`). -/
structure IIPruneView where
  canPrune : Bool
  prune : Nat → Nat → Nat → Except String (List Nat)

/-- The prune-relevant view of an `AggregatorRoTx` plus the owning
aggregator's `visibleFilesMinimaxTxNum` and `StepSize()`. -/
structure AggPruneView where
  d : Domain → DomainPruneView
  iis : IIPos → IIPruneView
  appendable : List (Nat → Nat → Nat → Except String (List Nat))
  visibleFilesMinimaxTxNum : Nat
  stepSize : Nat

/-- `AggregatorRoTx.minimaxTxNumInDomainFiles`: minimum of the visible-file
end txNums of the Accounts, Code, Storage and Commitment domains. -/
def minimaxTxNumInDomainFiles (st : AggPruneView) : Nat :=
  Nat.min (st.d .accounts).filesEndTxNum
    (Nat.min (st.d .code).filesEndTxNum
      (Nat.min (st.d .storage).filesEndTxNum (st.d .commitment).filesEndTxNum))

/-- `AggregatorRoTx.CanPrune` (with `dbg.NoPrune()` off): some domain can
prune until `untilTx`, or some standalone index can prune. -/
def CanPrune (st : AggPruneView) (untilTx : Nat) : Bool :=
  (st.d .accounts).canPruneUntil untilTx || (st.d .storage).canPruneUntil untilTx
    || (st.d .code).canPruneUntil untilTx || (st.d .commitment).canPruneUntil untilTx
    || (st.iis .logAddrIdxPos).canPrune || (st.iis .logTopicIdxPos).canPrune
    || (st.iis .tracesFromIdxPos).canPrune || (st.iis .tracesToIdxPos).canPrune

/-- Runs a sequence of component prunes with common bounds, stopping at the
first error; records each invocation's `(txFrom, txTo, limit)` and
accumulates the removed rows (source: the domain / inverted-index /
appendable loops of `AggregatorRoTx.Prune`, all of which return on the
first error). -/
def runPrunes (comps : List (Nat → Nat → Nat → Except String (List Nat)))
    (txFrom txTo lim : Nat) : Option String × List (Nat × Nat × Nat) × List Nat :=
  match comps with
  | [] => (none, [], [])
  | c :: rest =>
    match c txFrom txTo lim with
    | .error e => (some e, [(txFrom, txTo, lim)], [])
    | .ok rows =>
      let r := runPrunes rest txFrom txTo lim
      (r.1, (txFrom, txTo, lim) :: r.2.1, rows ++ r.2.2)

/-- Outcome of one `AggregatorRoTx.Prune` call: the Go result
(`.ok none` = `(nil, nil)`, `.ok (some ())` = a statistics object,
`.error` = the propagated component error), the bounds each component prune
was invoked with, and the txNums of all removed hot-store rows. -/
structure PruneOutcome where
  result : Except String (Option Unit)
  invocations : List (Nat × Nat × Nat)
  removed : List Nat
deriving Repr

/-- The component prunes in the order `AggregatorRoTx.Prune` runs them:
the four domains (each with the computed `step`), the four standalone
inverted indexes, then the appendables. -/
def pruneComponents (st : AggPruneView) (step : Nat) :
    List (Nat → Nat → Nat → Except String (List Nat)) :=
  [(st.d .accounts).prune step, (st.d .storage).prune step,
   (st.d .code).prune step, (st.d .commitment).prune step,
   (st.iis .logAddrIdxPos).prune, (st.iis .logTopicIdxPos).prune,
   (st.iis .tracesFromIdxPos).prune, (st.iis .tracesToIdxPos).prune]
  ++ st.appendable

/-- `AggregatorRoTx.Prune(ctx, tx, limit, logEvery)`: a zero `limit` is
replaced by `MaxUint64`; `txFrom` is always 0 and `txTo` is the
aggregator's `visibleFilesMinimaxTxNum`; `step` is `(txTo-1) / StepSize()`
when `txTo > 0`; when `txFrom == txTo` or nothing is prunable it returns
`(nil, nil)` without invoking any component; otherwise every component is
pruned over `[txFrom, txTo)` with the key bound, stopping at the first
error. -/
def aggPrune (st : AggPruneView) (limit : Nat) : PruneOutcome :=
  let lim := if limit = 0 then 2 ^ 64 - 1 else limit
  let txFrom := 0
  let txTo := st.visibleFilesMinimaxTxNum
  let step := if 0 < txTo then (txTo - 1) / st.stepSize else 0
  if txFrom = txTo || !CanPrune st txTo then
    { result := .ok none, invocations := [], removed := [] }
  else
    let r := runPrunes (pruneComponents st step) txFrom txTo lim
    { result := match r.1 with
        | some e => .error e
        | none => .ok (some ())
      invocations := r.2.1
      removed := r.2.2 }

/-! ## C1: `Aggregator.buildFiles` -/

/-- Outcome of one component goroutine of `Aggregator.buildFiles` (a domain,
a standalone inverted index, or an appendable): its collation failed (no
static files exist), its file build failed (the goroutine itself calls
`sf.CleanupOnError()` on its partial static files), or it succeeded and
recorded its static files into `static`. -/
inductive CompBuild where
  | collateFail (e : String)
  | buildFail (e : String) (partialFiles : List String)
  | ok (files : List String)
deriving DecidableEq, Repr

/-- Whether the component succeeded. -/
def CompBuild.isOk : CompBuild → Bool
  | .ok _ => true
  | _ => false

/-- The static files a successful component recorded into `static`. -/
def CompBuild.producedFiles : CompBuild → List String
  | .ok files => files
  | _ => []

/-- The partial static files a failed build cleans up itself
(`sf.CleanupOnError()` inside the goroutine). -/
def CompBuild.ownCleanup : CompBuild → List String
  | .buildFail _ p => p
  | _ => []

/-- One collate-and-build round of `Aggregator.buildFiles`: the outcomes of
the domain goroutines, the standalone inverted-index goroutines and the
appendable goroutines (the error group waits for all of them). -/
structure BuildRound where
  domains : List CompBuild
  iis : List CompBuild
  aps : List CompBuild
deriving DecidableEq, Repr

/-- All component outcomes of the round. -/
def BuildRound.components (r : BuildRound) : List CompBuild :=
  r.domains ++ r.iis ++ r.aps

/-- `g.Wait()` returns an error iff some component failed. -/
def BuildRound.anyFail (r : BuildRound) : Bool :=
  r.components.any (fun c => !c.isOk)

/-- All static files recorded into `static` by successful components. -/
def BuildRound.produced (r : BuildRound) : List String :=
  r.components.flatMap CompBuild.producedFiles

/-- What one `Aggregator.buildFiles` call does: whether it returns an
error, every file passed to a `CleanupOnError` (the failed goroutines' own
partial files plus, on `g.Wait()` error, all of `static`'s files), the
files handed to `integrateDirtyFiles` (none on failure), and whether the
visible-file set was recomputed (`integrateDirtyFiles` defers
`recalcVisibleFiles`). -/
structure BuildFilesOutcome where
  failed : Bool
  cleaned : List String
  integrated : Option (List String)
  recalcVisible : Bool
deriving DecidableEq, Repr

/-- `Aggregator.buildFiles(ctx, step)`: every component collates and builds;
each failed build cleans its own partial files; if `g.Wait()` reports any
failure, `static.CleanupOnError()` closes every static file recorded so far
and the call returns the error without integrating; otherwise all recorded
files are integrated into the dirty sets and the visible set is
recomputed. -/
def buildFilesRound (r : BuildRound) : BuildFilesOutcome :=
  let own := r.components.flatMap CompBuild.ownCleanup
  if r.anyFail then
    { failed := true
      cleaned := own ++ r.produced
      integrated := none
      recalcVisible := false }
  else
    { failed := false
      cleaned := own
      integrated := some r.produced
      recalcVisible := true }

/-! ## C5: `AggregatorRoTx.SqueezeCommitmentFiles` -/

/-- Modelled from the spec: the reserved sentinel key (`keyCommitmentState`)
under which the commitment domain stores its state record; the constant's
definition site is outside this repository and only its byte identity
matters here. -/
def keyCommitmentState : List Nat := [115, 116, 97, 116, 101]

/-- One commitment `.kv` file to be squeezed: its path, its txNum range and
its decompressed key/value pairs (`none` key = Go `nil` key, skipped by the
squeeze loop). -/
structure CommFile where
  path : String
  startTxNum : Nat
  endTxNum : Nat
  pairs : List (Option (List Nat) × List Nat)

/-- Modelled from the spec: the original commitment file plus its auxiliary
index artifacts (`kvBtFilePath`, `kvAccessorFilePath`,
`kvExistenceIdxFilePath` — the path builders are outside this repository);
these are the paths `SqueezeCommitmentFiles` schedules for removal for one
processed file. -/
def obsoleteArtifacts (cf : CommFile) : List String :=
  [cf.path, cf.path ++ ".bt", cf.path ++ ".kvi", cf.path ++ ".kvei"]

/-- Inputs of one `SqueezeCommitmentFiles` run: the commitment dirty files,
the txNum ranges of the account and storage dirty files (searched linearly
for a range-equal match), the value transform produced by
`commitmentValTransformDomain` for a matched range, and a per-file
write/compress/rename fault (the compressor, `AddWord`, `Compress` and
`os.Rename`/`os.Stat` failure modes, collapsed per file). -/
structure SqueezeInput where
  commitFiles : List CommFile
  accountRanges : List (Nat × Nat)
  storageRanges : List (Nat × Nat)
  vt : Nat → Nat → List Nat → Except String (List Nat)
  writeErr : String → Option String

/-- The `ai`/`si` linear search: the commitment file has an account file and
a storage file with exactly its txNum range. -/
def hasMatch (inp : SqueezeInput) (cf : CommFile) : Bool :=
  inp.accountRanges.any (fun r => r.1 == cf.startTxNum && r.2 == cf.endTxNum)
    && inp.storageRanges.any (fun r => r.1 == cf.startTxNum && r.2 == cf.endTxNum)

/-- The per-file squeeze loop body: each pair is copied with its value
transformed, except a `nil` key (skipped) and the reserved
`keyCommitmentState` key (copied unchanged); a transform failure aborts. -/
def squeezePairs (vt : List Nat → Except String (List Nat)) :
    List (Option (List Nat) × List Nat) → Except String (List (List Nat × List Nat))
  | [] => .ok []
  | (none, _) :: rest => squeezePairs vt rest
  | (some k, v) :: rest =>
    match (if k = keyCommitmentState then .ok v else vt v) with
    | .error e => .error e
    | .ok v2 =>
      match squeezePairs vt rest with
      | .error e => .error e
      | .ok out => .ok ((k, v2) :: out)

/-- The file loop of `SqueezeCommitmentFiles`: files without a matching
account or storage file are skipped; each matched file is decompressed,
squeezed into a temp file and scheduled — obsolete originals and the
squeezed temp files are only accumulated; any failure aborts the whole
run. Returns the squeezed contents and the accumulated obsolete paths. -/
def squeezeLoop (inp : SqueezeInput) :
    List CommFile →
      Except String (List (String × List (List Nat × List Nat)) × List String)
  | [] => .ok ([], [])
  | cf :: rest =>
    if !hasMatch inp cf then squeezeLoop inp rest
    else
      match squeezePairs (inp.vt cf.startTxNum cf.endTxNum) cf.pairs with
      | .error e => .error e
      | .ok out =>
        match inp.writeErr cf.path with
        | some e => .error e
        | none =>
          match squeezeLoop inp rest with
          | .error e => .error e
          | .ok r => .ok ((cf.path, out) :: r.1, obsoleteArtifacts cf ++ r.2)

/-- Result of one `SqueezeCommitmentFiles` run: the error if any, the
squeezed file contents, the obsolete paths actually removed and the
original paths a squeezed file was renamed over. -/
structure SqueezeResult where
  err : Option String
  outputs : List (String × List (List Nat × List Nat))
  removed : List String
  renamedOver : List String

/-- `AggregatorRoTx.SqueezeCommitmentFiles`: processes file by file, and
only after every file succeeded removes the obsolete originals and index
artifacts and renames each squeezed file over its original; on any error
nothing has been removed or renamed over. -/
def SqueezeCommitmentFiles (inp : SqueezeInput) : SqueezeResult :=
  match squeezeLoop inp inp.commitFiles with
  | .error e => { err := some e, outputs := [], removed := [], renamedOver := [] }
  | .ok r =>
    { err := none, outputs := r.1, removed := r.2, renamedOver := r.1.map (·.1) }

/-! ## C3: the Accounts/Storage → Commitment merge barrier in
`AggregatorRoTx.mergeFiles` -/

/-- Program counter of the Accounts (resp. Storage) merge goroutine of one
`mergeFiles` pass: before writing its merged output into `mf.d[...]`,
between that write and its `accStorageMerged.Done()`, or finished. -/
inductive MergePc where
  | start
  | written
  | done
deriving DecidableEq, Repr

/-- Interleaved-execution state of the Accounts, Storage and Commitment
merge goroutines of one `mergeFiles` pass with `commitmentValuesTransform`
enabled. `mfAcc`/`mfSto` are `mf.d[kv.AccountsDomain]` /
`mf.d[kv.StorageDomain]` (`none` = still Go-nil, `some f` = the freshly
merged output file `f`); `wg` is the `accStorageMerged` wait-group counter;
`vtArgs` records the pair of files the Commitment goroutine read from
`mf.d` when constructing its value transform, `none` while its
`accStorageMerged.Wait()` still blocks. -/
structure MergeSt where
  mfAcc : Option Nat
  mfSto : Option Nat
  wg : Nat
  accPc : MergePc
  stoPc : MergePc
  vtArgs : Option (Option Nat × Option Nat)
deriving DecidableEq, Repr

/-- Initial state of a pass merging Accounts iff `inAcc` and Storage iff
`inSto` (the Commitment domain is part of the pass): the main goroutine has
executed `accStorageMerged.Add(1)` for each of them (ids 0 and 1 of the
domain loop, before the Commitment goroutine at id 3 is spawned), and
nothing is merged yet. -/
def mergeInit (inAcc inSto : Bool) : MergeSt where
  mfAcc := none
  mfSto := none
  wg := (if inAcc then 1 else 0) + (if inSto then 1 else 0)
  accPc := .start
  stoPc := .start
  vtArgs := none

/-- One atomic interleaving step: the Accounts goroutine writes its merged
output `accFile` into `mf.d` and later calls `Done()`; likewise Storage
with `stoFile`; the Commitment goroutine passes `accStorageMerged.Wait()`
only when the counter is zero and then constructs its value transform
against the current `mf.d[kv.AccountsDomain]`, `mf.d[kv.StorageDomain]`. -/
inductive MergeStep (inAcc inSto : Bool) (accFile stoFile : Nat) :
    MergeSt → MergeSt → Prop where
  | accWrite (s : MergeSt) (h : inAcc = true) (hpc : s.accPc = .start) :
      MergeStep inAcc inSto accFile stoFile s
        { s with mfAcc := some accFile, accPc := .written }
  | accDone (s : MergeSt) (h : inAcc = true) (hpc : s.accPc = .written) :
      MergeStep inAcc inSto accFile stoFile s
        { s with wg := s.wg - 1, accPc := .done }
  | stoWrite (s : MergeSt) (h : inSto = true) (hpc : s.stoPc = .start) :
      MergeStep inAcc inSto accFile stoFile s
        { s with mfSto := some stoFile, stoPc := .written }
  | stoDone (s : MergeSt) (h : inSto = true) (hpc : s.stoPc = .written) :
      MergeStep inAcc inSto accFile stoFile s
        { s with wg := s.wg - 1, stoPc := .done }
  | commVt (s : MergeSt) (hwg : s.wg = 0) (hv : s.vtArgs = none) :
      MergeStep inAcc inSto accFile stoFile s
        { s with vtArgs := some (s.mfAcc, s.mfSto) }

/-- States reachable by interleaving the three goroutines from the start of
the pass. -/
inductive MergeReach (inAcc inSto : Bool) (accFile stoFile : Nat) : MergeSt → Prop where
  | init : MergeReach inAcc inSto accFile stoFile (mergeInit inAcc inSto)
  | step {s t : MergeSt} : MergeReach inAcc inSto accFile stoFile s →
      MergeStep inAcc inSto accFile stoFile s t →
      MergeReach inAcc inSto accFile stoFile t

/-- Contribution of one goroutine to the `accStorageMerged` counter: 1 from
its `Add(1)` until its `Done()`. -/
def wgContrib (flag : Bool) (pc : MergePc) : Nat :=
  if flag = true ∧ pc ≠ MergePc.done then 1 else 0

/-- Inductive invariant of the merge interleaving: the wait-group counter
counts the unfinished Accounts/Storage goroutines; a goroutine past `start`
has published exactly its merged output file; and once the Commitment
goroutine has constructed its transform, both merges are complete and the
transform was built against the merged output files. -/
def MergeInv (inAcc inSto : Bool) (accFile stoFile : Nat) (s : MergeSt) : Prop :=
  s.wg = wgContrib inAcc s.accPc + wgContrib inSto s.stoPc
  ∧ (inAcc = true →
      (s.accPc = .start → s.mfAcc = none) ∧ (s.accPc ≠ .start → s.mfAcc = some accFile))
  ∧ (inAcc = false → s.accPc = .start ∧ s.mfAcc = none)
  ∧ (inSto = true →
      (s.stoPc = .start → s.mfSto = none) ∧ (s.stoPc ≠ .start → s.mfSto = some stoFile))
  ∧ (inSto = false → s.stoPc = .start ∧ s.mfSto = none)
  ∧ (s.vtArgs.isSome = true →
      (inAcc = true → s.accPc = .done) ∧ (inSto = true → s.stoPc = .done)
      ∧ s.vtArgs = some ((if inAcc = true then some accFile else none),
                         (if inSto = true then some stoFile else none)))

/-! ## Theorems -/

/-- The wrapped Go subtraction agrees with `Nat` subtraction on in-range
ordered inputs. -/
theorem goSub64_eq_sub (a b : Nat) (hba : b ≤ a) (ha : a < 2 ^ 64) :
    goSub64 a b = a - b := by
  unfold goSub64
  have hb : b < 2 ^ 64 := lt_of_le_of_lt hba ha
  rw [Nat.mod_eq_of_lt ha, Nat.mod_eq_of_lt hb]
  have h1 : 2 ^ 64 + a - b = 2 ^ 64 + (a - b) := by omega
  rw [h1, Nat.add_mod_left, Nat.mod_eq_of_lt (by omega)]

/-- C4: the integrity check installed by `NewAggregator` accepts the
Commitment domain unconditionally, accepts any Accounts/Storage/Code file
spanning more than one step, and accepts an Accounts/Storage/Code file
spanning at most one step iff the Commitment `.kv` file for exactly the same
step range exists on disk. -/
theorem C4_integrityCheck_spec (disk : String → Bool) (name : Domain)
    (fromStep toStep : Nat) (hle : fromStep ≤ toStep) (hlt : toStep < 2 ^ 64) :
    integrityCheck disk .commitment fromStep toStep = true
    ∧ (name ≠ .commitment → 1 < toStep - fromStep →
        integrityCheck disk name fromStep toStep = true)
    ∧ (name ≠ .commitment → toStep - fromStep ≤ 1 →
        (integrityCheck disk name fromStep toStep = true ↔
          disk (commitmentKvFilePath fromStep toStep) = true)) := by
  have hgo : goSub64 toStep fromStep = toStep - fromStep := goSub64_eq_sub _ _ hle hlt
  refine ⟨rfl, ?_, ?_⟩
  · intro hname hspan
    cases name with
    | accounts => simp [integrityCheck, hgo, hspan]
    | storage => simp [integrityCheck, hgo, hspan]
    | code => simp [integrityCheck, hgo, hspan]
    | commitment => exact absurd rfl hname
  · intro hname hspan
    have hnot : ¬ 1 < toStep - fromStep := by omega
    cases name with
    | accounts => simp [integrityCheck, hgo, hnot, commitmentFileMustExist]
    | storage => simp [integrityCheck, hgo, hnot, commitmentFileMustExist]
    | code => simp [integrityCheck, hgo, hnot, commitmentFileMustExist]
    | commitment => exact absurd rfl hname

/-- C4 witness: concrete evaluation of the integrity check at a single-step
Accounts file whose matching Commitment file is absent. -/
theorem C4_integrityCheck_spec_witness :
    (3 : Nat) ≤ 4 ∧ (4 : Nat) < 2 ^ 64
    ∧ (integrityCheck (fun _ => false) .commitment 3 4 = true
      ∧ (Domain.accounts ≠ .commitment → 1 < 4 - 3 →
          integrityCheck (fun _ => false) .accounts 3 4 = true)
      ∧ (Domain.accounts ≠ .commitment → 4 - 3 ≤ 1 →
          (integrityCheck (fun _ => false) .accounts 3 4 = true ↔
            (fun (_ : String) => false) (commitmentKvFilePath 3 4) = true))) :=
  ⟨by decide, by norm_num,
    C4_integrityCheck_spec (fun _ => false) .accounts 3 4 (by decide) (by norm_num)⟩

/-- C6: in both `PruneSmallBatches` and `PruneSmallBatchesDb` the
per-iteration key limit starts at 1,000 (1,000,000 when the timeout exceeds
5 hours, furious mode); in aggressive mode (timeout between 1 minute and 5
hours inclusive) an iteration under 2 seconds multiplies the limit by 10 and
an iteration longer than the 30-second log period divides it by 10, while an
iteration in between leaves it unchanged; outside aggressive mode the limit
never changes. -/
theorem C6_pruneLimit_tuning (timeout pruneLimit took : Nat) :
    ((5 * goHour < timeout →
        initialPruneLimitDb timeout = 1000000 ∧ initialPruneLimit timeout = 1000000)
      ∧ (timeout ≤ 5 * goHour →
        initialPruneLimitDb timeout = 1000 ∧ initialPruneLimit timeout = 1000))
    ∧ (goMinute ≤ timeout → timeout ≤ 5 * goHour →
        (took < 2 * goSecond → pruneLimit * 10 < 2 ^ 64 →
          pruneLimitStepDb timeout pruneLimit took = pruneLimit * 10
          ∧ pruneLimitStep timeout pruneLimit took = pruneLimit * 10)
        ∧ (logPeriod < took →
          pruneLimitStepDb timeout pruneLimit took = pruneLimit / 10
          ∧ pruneLimitStep timeout pruneLimit took = pruneLimit / 10)
        ∧ (2 * goSecond ≤ took → took ≤ logPeriod →
          pruneLimitStepDb timeout pruneLimit took = pruneLimit
          ∧ pruneLimitStep timeout pruneLimit took = pruneLimit))
    ∧ (timeout < goMinute ∨ 5 * goHour < timeout →
        pruneLimitStepDb timeout pruneLimit took = pruneLimit
        ∧ pruneLimitStep timeout pruneLimit took = pruneLimit) := by
  refine ⟨⟨?_, ?_⟩, ?_, ?_⟩
  · intro h
    have hf : furiousPrune timeout = true := by simp [furiousPrune, h]
    simp [initialPruneLimitDb, initialPruneLimit, hf]
  · intro h
    have hf : furiousPrune timeout = false := by
      simp [furiousPrune]; omega
    simp [initialPruneLimitDb, initialPruneLimit, hf]
  · intro h1 h2
    have hf : furiousPrune timeout = false := by
      simp [furiousPrune]; omega
    have ha : aggressivePrune timeout = true := by
      simp [aggressivePrune, hf, h1]
    refine ⟨?_, ?_, ?_⟩
    · intro hshort hnoflow
      have hlog : ¬ logPeriod < took := by
        simp only [logPeriod, goSecond] at *; omega
      have hm : pruneLimit * 10 % 2 ^ 64 = pruneLimit * 10 := Nat.mod_eq_of_lt hnoflow
      simp [pruneLimitStepDb, pruneLimitStep, ha, hshort, hlog, hm]
      omega
    · intro hlong
      have hshort : ¬ took < 2 * goSecond := by
        simp only [logPeriod, goSecond] at *; omega
      simp [pruneLimitStepDb, pruneLimitStep, ha, hshort, hlong]
    · intro hge hle
      have hshort : ¬ took < 2 * goSecond := by omega
      have hlog : ¬ logPeriod < took := by omega
      simp [pruneLimitStepDb, pruneLimitStep, ha, hshort, hlog]
  · intro h
    have ha : aggressivePrune timeout = false := by
      rcases h with h | h
      · simp [aggressivePrune, furiousPrune]; omega
      · simp [aggressivePrune, furiousPrune, h]
    simp [pruneLimitStepDb, pruneLimitStep, ha]

/-- C6 witness: concrete evaluations — a 2-hour timeout (aggressive) with a
1-second iteration grows the limit tenfold, with a 40-second iteration
shrinks it tenfold; a 3-second timeout (non-aggressive) leaves it
unchanged. -/
theorem C6_pruneLimit_tuning_witness :
    (pruneLimitStepDb (2 * goHour) 1000 goSecond = 10000
      ∧ pruneLimitStep (2 * goHour) 1000 goSecond = 10000)
    ∧ (pruneLimitStepDb (2 * goHour) 1000 (40 * goSecond) = 100
      ∧ pruneLimitStep (2 * goHour) 1000 (40 * goSecond) = 100)
    ∧ (pruneLimitStepDb (3 * goSecond) 1000 goSecond = 1000
      ∧ pruneLimitStep (3 * goSecond) 1000 goSecond = 1000) := by
  refine ⟨?_, ?_, ?_⟩
  · have h := ((C6_pruneLimit_tuning (2 * goHour) 1000 goSecond).2.1
      (by norm_num [goMinute, goHour, goSecond])
      (by norm_num [goHour, goMinute, goSecond])).1
      (by norm_num [goSecond]) (by norm_num)
    simpa using h
  · exact ((C6_pruneLimit_tuning (2 * goHour) 1000 (40 * goSecond)).2.1
      (by norm_num [goMinute, goHour, goSecond])
      (by norm_num [goHour, goMinute, goSecond])).2.1
      (by norm_num [logPeriod, goSecond])
  · exact (C6_pruneLimit_tuning (3 * goSecond) 1000 goSecond).2.2
      (Or.inl (by norm_num [goMinute, goSecond]))

/-- A concrete `AggregatorRoTx` prune view: all four domains' visible files
end at txNum 16, everything reports prunable data, and every component
prune succeeds removing nothing. -/
def c2State : AggPruneView where
  d := fun _ =>
    { filesEndTxNum := 16
      canPruneUntil := fun _ => true
      prune := fun _ _ _ _ => .ok [] }
  iis := fun _ => { canPrune := true, prune := fun _ _ _ => .ok [] }
  appendable := []
  visibleFilesMinimaxTxNum := 16
  stepSize := 16

/-- Every invocation `runPrunes` makes carries the bounds it was given. -/
theorem runPrunes_invocations (comps : List (Nat → Nat → Nat → Except String (List Nat)))
    (f t l : Nat) : ∀ inv ∈ (runPrunes comps f t l).2.1, inv = (f, t, l) := by
  induction comps with
  | nil => simp [runPrunes]
  | cons c rest ih =>
    intro inv hinv
    simp only [runPrunes] at hinv
    cases h : c f t l with
    | error e => simp [h] at hinv; simp [hinv]
    | ok rows =>
      simp [h] at hinv
      rcases hinv with hinv | hinv
      · simp [hinv]
      · exact ih inv hinv

/-- If each component removes only rows inside the given range, so does the
whole `runPrunes` sweep. -/
theorem runPrunes_removed (comps : List (Nat → Nat → Nat → Except String (List Nat)))
    (f t l : Nat)
    (hc : ∀ c ∈ comps, ∀ rows x, c f t l = .ok rows → x ∈ rows → f ≤ x ∧ x < t) :
    ∀ x ∈ (runPrunes comps f t l).2.2, f ≤ x ∧ x < t := by
  induction comps with
  | nil => simp [runPrunes]
  | cons c rest ih =>
    intro x hx
    simp only [runPrunes] at hx
    cases h : c f t l with
    | error e => simp [h] at hx
    | ok rows =>
      simp [h] at hx
      rcases hx with hx | hx
      · exact hc c (by simp) rows x h hx
      · exact ih (fun c2 hc2 => hc c2 (by simp [hc2])) x hx

/-- A freshly written file is found by lookup. -/
theorem fsLookup_fsWrite_self (fs : FSState) (p : String) (bs : List Nat) :
    fsLookup (fsWrite fs p bs) p = some bs := by
  simp [fsWrite, fsLookup]

/-- Big-endian uint32 decode inverts encode. -/
theorem be4_be4Bytes (n : Nat) : be4 (be4Bytes n) = some (n % 2 ^ 32) := by
  simp only [be4Bytes, be4]
  congr 1
  omega

/-- C7: `getStateIndicesSalt` returns the big-endian uint32 of the first 4
bytes of `salt-state.txt` when it exists (also when it exists only after the
legacy `salt.txt` is renamed into place); when no salt file exists it writes
the freshly generated salt big-endian and returns the value read back from
the file; any file-system fault makes it return the error and no salt, and
`NewAggregator` then propagates that error without constructing an
aggregator. -/
theorem C7_getStateIndicesSalt_spec (baseDir : String) (randSalt : Nat) (fs : FSState) :
    (∀ bs v, fsLookup fs (saltStatePath baseDir) = some bs → be4 bs = some v →
      getStateIndicesSalt noFaults baseDir randSalt fs = .ok (v, fs))
    ∧ (∀ bs v, fsLookup fs (saltStatePath baseDir) = none →
        fsLookup fs (saltTxtPath baseDir) = some bs → be4 bs = some v →
        getStateIndicesSalt noFaults baseDir randSalt fs =
          .ok (v, fsRename fs (saltTxtPath baseDir) (saltStatePath baseDir)))
    ∧ (fsLookup fs (saltStatePath baseDir) = none →
        fsLookup fs (saltTxtPath baseDir) = none → randSalt < 2 ^ 32 →
        getStateIndicesSalt noFaults baseDir randSalt fs =
          .ok (randSalt, fsWrite fs (saltStatePath baseDir) (be4Bytes randSalt)))
    ∧ (∀ flt : FSFaults, flt.exist1Fail = true →
        getStateIndicesSalt flt baseDir randSalt fs = .error .existErr)
    ∧ (∀ (α : Type) (flt : FSFaults) (e : FsErr) (rest : Nat → FSState → Except FsErr α),
        getStateIndicesSalt flt baseDir randSalt fs = .error e →
        newAggregatorSaltStep flt baseDir randSalt fs rest = .error e) := by
  refine ⟨?_, ?_, ?_, ?_, ?_⟩
  · intro bs v h1 h2
    simp [getStateIndicesSalt, noFaults, h1, h2]
  · intro bs v h1 h2 h3
    have hren : fsRename fs (saltTxtPath baseDir) (saltStatePath baseDir) =
        fsWrite (fs.filter (fun e => !(e.1 == saltTxtPath baseDir)))
          (saltStatePath baseDir) bs := by
      simp [fsRename, h2]
    simp [getStateIndicesSalt, noFaults, h1, h2, hren, fsLookup_fsWrite_self, h3]
  · intro h1 h2 hlt
    have hround : be4 (be4Bytes randSalt) = some randSalt := by
      rw [be4_be4Bytes, Nat.mod_eq_of_lt hlt]
    simp [getStateIndicesSalt, noFaults, h1, h2, fsLookup_fsWrite_self, hround]
  · intro flt h
    simp [getStateIndicesSalt, h]
  · intro α flt e rest h
    simp [newAggregatorSaltStep, h]

/-- C7 witness: concrete runs — an existing 4-byte salt file decodes to 7, a
fresh directory gets salt 5 written and returned, and an exist-check fault
aborts `NewAggregator` with that error. -/
theorem C7_getStateIndicesSalt_spec_witness :
    (getStateIndicesSalt noFaults "snap" 5 [(saltStatePath "snap", [0, 0, 0, 7])] =
      .ok (7, [(saltStatePath "snap", [0, 0, 0, 7])]))
    ∧ (getStateIndicesSalt noFaults "snap" 5 [] =
      .ok (5, fsWrite [] (saltStatePath "snap") (be4Bytes 5)))
    ∧ (newAggregatorSaltStep ⟨true, false, false, false, false, false⟩ "snap" 5 []
        (fun n fs2 => (.ok (n, fs2) : Except FsErr (Nat × FSState))) = .error .existErr) := by
  refine ⟨?_, ?_, ?_⟩
  · exact (C7_getStateIndicesSalt_spec "snap" 5 [(saltStatePath "snap", [0, 0, 0, 7])]).1
      [0, 0, 0, 7] 7 (by simp [fsLookup]) (by decide)
  · exact (C7_getStateIndicesSalt_spec "snap" 5 []).2.2.1 rfl rfl (by norm_num)
  · exact (C7_getStateIndicesSalt_spec "snap" 5 []).2.2.2.2 (Nat × FSState)
      ⟨true, false, false, false, false, false⟩ .existErr
      (fun n fs2 => .ok (n, fs2))
      ((C7_getStateIndicesSalt_spec "snap" 5 []).2.2.2.1
        ⟨true, false, false, false, false, false⟩ rfl)

/-- C1: `buildFiles` is atomic per step: if any domain / inverted-index /
appendable component fails to collate or build, the call fails, every
static file already produced in the round and every failed build's partial
file is cleaned up, and nothing is integrated; only when every component
succeeds are all the round's files integrated, followed by a visible-set
recompute, with nothing cleaned up. -/
theorem C1_buildFiles_atomic (r : BuildRound) :
    (r.anyFail = true →
      (buildFilesRound r).failed = true
      ∧ (buildFilesRound r).integrated = none
      ∧ (∀ c ∈ r.components, ∀ f ∈ c.producedFiles, f ∈ (buildFilesRound r).cleaned)
      ∧ (∀ c ∈ r.components, ∀ f ∈ c.ownCleanup, f ∈ (buildFilesRound r).cleaned))
    ∧ (r.anyFail = false →
      (buildFilesRound r).failed = false
      ∧ (buildFilesRound r).integrated = some r.produced
      ∧ (buildFilesRound r).cleaned = []
      ∧ (buildFilesRound r).recalcVisible = true) := by
  constructor
  · intro h
    refine ⟨by simp [buildFilesRound, h], by simp [buildFilesRound, h], ?_, ?_⟩
    · intro c hc f hf
      simp only [buildFilesRound, h, if_true, List.mem_append]
      right
      exact List.mem_flatMap.2 ⟨c, hc, hf⟩
    · intro c hc f hf
      simp only [buildFilesRound, h, if_true, List.mem_append]
      left
      exact List.mem_flatMap.2 ⟨c, hc, hf⟩
  · intro h
    have hown : r.components.flatMap CompBuild.ownCleanup = [] := by
      rw [List.flatMap_eq_nil_iff]
      intro c hc
      have hok : c.isOk = true := by
        by_contra hno
        have : r.anyFail = true := by
          simp only [BuildRound.anyFail, List.any_eq_true]
          exact ⟨c, hc, by simp [hno]⟩
        rw [h] at this
        exact Bool.false_ne_true this
      cases c with
      | collateFail e => simp [CompBuild.isOk] at hok
      | buildFail e p => simp [CompBuild.isOk] at hok
      | ok files => simp [CompBuild.ownCleanup]
    refine ⟨by simp [buildFilesRound, h], by simp [buildFilesRound, h], ?_,
      by simp [buildFilesRound, h]⟩
    simp [buildFilesRound, h, hown]

/-- C1 witness: a round whose second domain build fails — its partial file
and the successful components' files are all cleaned, nothing integrated —
and a fully successful round that integrates everything. -/
theorem C1_buildFiles_atomic_witness :
    (BuildRound.anyFail ⟨[.ok ["a.kv"], .buildFail "boom" ["b.kv.tmp"]],
        [.ok ["c.ef"]], []⟩ = true
      ∧ (buildFilesRound ⟨[.ok ["a.kv"], .buildFail "boom" ["b.kv.tmp"]],
          [.ok ["c.ef"]], []⟩).integrated = none
      ∧ "a.kv" ∈ (buildFilesRound ⟨[.ok ["a.kv"], .buildFail "boom" ["b.kv.tmp"]],
          [.ok ["c.ef"]], []⟩).cleaned
      ∧ "b.kv.tmp" ∈ (buildFilesRound ⟨[.ok ["a.kv"], .buildFail "boom" ["b.kv.tmp"]],
          [.ok ["c.ef"]], []⟩).cleaned)
    ∧ (buildFilesRound ⟨[.ok ["a.kv"]], [.ok ["c.ef"]], []⟩).integrated =
        some ["a.kv", "c.ef"] := by
  constructor
  · have h := (C1_buildFiles_atomic ⟨[.ok ["a.kv"], .buildFail "boom" ["b.kv.tmp"]],
      [.ok ["c.ef"]], []⟩).1 (by decide)
    refine ⟨by decide, h.2.1, ?_, ?_⟩
    · exact h.2.2.1 (.ok ["a.kv"]) (by simp [BuildRound.components])
        "a.kv" (by simp [CompBuild.producedFiles])
    · exact h.2.2.2 (.buildFail "boom" ["b.kv.tmp"]) (by simp [BuildRound.components])
        "b.kv.tmp" (by simp [CompBuild.ownCleanup])
  · have h := (C1_buildFiles_atomic ⟨[.ok ["a.kv"]], [.ok ["c.ef"]], []⟩).2 (by decide)
    rw [h.2.1]
    rfl

/-- The merge-barrier invariant holds initially. -/
theorem mergeInv_init (inAcc inSto : Bool) (accFile stoFile : Nat) :
    MergeInv inAcc inSto accFile stoFile (mergeInit inAcc inSto) := by
  cases inAcc <;> cases inSto <;> simp [MergeInv, mergeInit, wgContrib]

/-- The merge-barrier invariant is preserved by every interleaving step. -/
theorem mergeInv_step (inAcc inSto : Bool) (accFile stoFile : Nat)
    (s t : MergeSt) (hinv : MergeInv inAcc inSto accFile stoFile s)
    (hstep : MergeStep inAcc inSto accFile stoFile s t) :
    MergeInv inAcc inSto accFile stoFile t := by
  obtain ⟨h1, h2, h3, h4, h5, h6⟩ := hinv
  cases hstep with
  | accWrite h hpc =>
    subst h
    refine ⟨?_, ?_, ?_, h4, h5, ?_⟩
    · simpa [wgContrib, hpc] using h1
    · intro _
      exact ⟨fun hps => absurd hps (by simp), fun _ => rfl⟩
    · intro hfa; exact absurd hfa (by simp)
    · intro hv
      have hd : s.accPc = .done := (h6 hv).1 rfl
      rw [hpc] at hd
      exact absurd hd (by simp)
  | accDone h hpc =>
    subst h
    refine ⟨?_, ?_, ?_, h4, h5, ?_⟩
    · simp only [wgContrib, hpc] at h1
      simp only [wgContrib]
      simp at h1 ⊢
      omega
    · intro _
      refine ⟨fun hps => absurd hps (by simp), fun _ => ?_⟩
      exact (h2 rfl).2 (by rw [hpc]; simp)
    · intro hfa; exact absurd hfa (by simp)
    · intro hv
      have hd : s.accPc = .done := (h6 hv).1 rfl
      rw [hpc] at hd
      exact absurd hd (by simp)
  | stoWrite h hpc =>
    subst h
    refine ⟨?_, h2, h3, ?_, ?_, ?_⟩
    · simpa [wgContrib, hpc] using h1
    · intro _
      exact ⟨fun hps => absurd hps (by simp), fun _ => rfl⟩
    · intro hfa; exact absurd hfa (by simp)
    · intro hv
      have hd : s.stoPc = .done := (h6 hv).2.1 rfl
      rw [hpc] at hd
      exact absurd hd (by simp)
  | stoDone h hpc =>
    subst h
    refine ⟨?_, h2, h3, ?_, ?_, ?_⟩
    · simp only [wgContrib, hpc] at h1
      simp only [wgContrib]
      simp at h1 ⊢
      omega
    · intro _
      refine ⟨fun hps => absurd hps (by simp), fun _ => ?_⟩
      exact (h4 rfl).2 (by rw [hpc]; simp)
    · intro hfa; exact absurd hfa (by simp)
    · intro hv
      have hd : s.stoPc = .done := (h6 hv).2.1 rfl
      rw [hpc] at hd
      exact absurd hd (by simp)
  | commVt hwg hv =>
    refine ⟨h1, h2, h3, h4, h5, ?_⟩
    intro _
    have hz : wgContrib inAcc s.accPc = 0 ∧ wgContrib inSto s.stoPc = 0 := by
      constructor <;> omega
    have haccd : inAcc = true → s.accPc = .done := by
      intro ha
      by_contra hne
      have : wgContrib inAcc s.accPc = 1 := by simp [wgContrib, ha, hne]
      omega
    have hstod : inSto = true → s.stoPc = .done := by
      intro ha
      by_contra hne
      have : wgContrib inSto s.stoPc = 1 := by simp [wgContrib, ha, hne]
      omega
    refine ⟨haccd, hstod, ?_⟩
    have hacc : s.mfAcc = (if inAcc = true then some accFile else none) := by
      cases hia : inAcc with
      | true =>
        have hd := haccd hia
        rw [if_pos rfl]
        exact (h2 hia).2 (by rw [hd]; simp)
      | false =>
        rw [if_neg (by simp)]
        exact (h3 hia).2
    have hsto : s.mfSto = (if inSto = true then some stoFile else none) := by
      cases hia : inSto with
      | true =>
        have hd := hstod hia
        rw [if_pos rfl]
        exact (h4 hia).2 (by rw [hd]; simp)
      | false =>
        rw [if_neg (by simp)]
        exact (h5 hia).2
    show some (s.mfAcc, s.mfSto) = _
    rw [hacc, hsto]

/-- Every reachable state satisfies the merge-barrier invariant. -/
theorem mergeReach_inv (inAcc inSto : Bool) (accFile stoFile : Nat)
    (s : MergeSt) (h : MergeReach inAcc inSto accFile stoFile s) :
    MergeInv inAcc inSto accFile stoFile s := by
  induction h with
  | init => exact mergeInv_init inAcc inSto accFile stoFile
  | step hr hs ih => exact mergeInv_step inAcc inSto accFile stoFile _ _ ih hs

/-- C3: in every interleaving of a `mergeFiles` pass with
`commitmentValuesTransform` enabled that includes the Commitment domain,
when the Commitment goroutine constructs its value transform, the Accounts
and Storage merges of the pass have already completed (the
`accStorageMerged` barrier), and the transform's inputs are exactly the
freshly merged `mf.d[kv.AccountsDomain]` and `mf.d[kv.StorageDomain]`
output files — never the pre-merge input files (which never flow into
`mf.d`). -/
theorem C3_mergeFiles_commitment_barrier (inAcc inSto : Bool) (accFile stoFile : Nat)
    (s : MergeSt) (h : MergeReach inAcc inSto accFile stoFile s) :
    ∀ a b, s.vtArgs = some (a, b) →
      a = (if inAcc = true then some accFile else none)
      ∧ b = (if inSto = true then some stoFile else none)
      ∧ (inAcc = true → s.accPc = .done)
      ∧ (inSto = true → s.stoPc = .done) := by
  intro a b hab
  have hinv := mergeReach_inv inAcc inSto accFile stoFile s h
  have h6 := hinv.2.2.2.2.2 (by rw [hab]; rfl)
  have heq := h6.2.2
  rw [hab] at heq
  injection heq with hpair
  exact ⟨congrArg Prod.fst hpair, congrArg Prod.snd hpair, h6.1, h6.2.1⟩

/-- The state at the end of one concrete interleaving: both merges done,
barrier passed, transform constructed against the merged files 1 and 2. -/
def c3Final : MergeSt := ⟨some 1, some 2, 0, .done, .done, some (some 1, some 2)⟩

/-- C3 witness: a concrete complete interleaving (Accounts writes and
finishes, Storage writes and finishes, then the Commitment goroutine
passes the barrier), at which the theorem yields that the transform read
the merged outputs. -/
theorem C3_mergeFiles_commitment_barrier_witness :
    MergeReach true true 1 2 c3Final
    ∧ ∃ a b, c3Final.vtArgs = some (a, b) ∧ a = some 1 ∧ b = some 2 := by
  have h0 : MergeReach true true 1 2 (mergeInit true true) := .init
  have h1 := MergeReach.step h0 (MergeStep.accWrite (mergeInit true true) rfl rfl)
  have h2 := MergeReach.step h1 (MergeStep.accDone _ rfl rfl)
  have h3 := MergeReach.step h2 (MergeStep.stoWrite _ rfl rfl)
  have h4 := MergeReach.step h3 (MergeStep.stoDone _ rfl rfl)
  have h5 := MergeReach.step h4 (MergeStep.commVt _ rfl rfl)
  have hreach : MergeReach true true 1 2 c3Final := h5
  have hc := C3_mergeFiles_commitment_barrier true true 1 2 c3Final hreach
    (some 1) (some 2) rfl
  refine ⟨hreach, some 1, some 2, rfl, ?_, ?_⟩
  · rw [hc.1]
  · rw [hc.2.1]

/-- Every non-nil-key pair of a successfully squeezed pair list appears in
the output: unchanged under the sentinel key, transformed otherwise. -/
theorem squeezePairs_mem (vt : List Nat → Except String (List Nat))
    (pairs : List (Option (List Nat) × List Nat))
    (out : List (List Nat × List Nat)) (h : squeezePairs vt pairs = .ok out) :
    ∀ k v, (some k, v) ∈ pairs →
      ((k = keyCommitmentState → (k, v) ∈ out)
        ∧ (k ≠ keyCommitmentState → ∃ v2, vt v = .ok v2 ∧ (k, v2) ∈ out)) := by
  induction pairs generalizing out with
  | nil => intro k v hk; simp at hk
  | cons p rest ih =>
    intro k v hkv
    match p with
    | (none, w) =>
      simp only [squeezePairs] at h
      rcases List.mem_cons.1 hkv with heq | htail
      · exact absurd heq (by simp)
      · exact ih out h k v htail
    | (some k0, v0) =>
      simp only [squeezePairs] at h
      cases hv : (if k0 = keyCommitmentState then Except.ok v0 else vt v0) with
      | error e => rw [hv] at h; exact absurd h (by simp)
      | ok v2 =>
        rw [hv] at h
        cases hr : squeezePairs vt rest with
        | error e => rw [hr] at h; exact absurd h (by simp)
        | ok out0 =>
          rw [hr] at h
          have hout : out = (k0, v2) :: out0 := by
            cases h; rfl
          subst hout
          rcases List.mem_cons.1 hkv with heq | htail
          · have hk : k = k0 := by
              have h2 := congrArg Prod.fst heq
              simpa using h2
            have hvv : v = v0 := congrArg Prod.snd heq
            subst hk; subst hvv
            constructor
            · intro hs
              rw [if_pos hs] at hv
              cases hv
              exact List.mem_cons_self _ _
            · intro hs
              rw [if_neg hs] at hv
              exact ⟨v2, hv, List.mem_cons_self _ _⟩
          · have := ih out0 hr k v htail
            exact ⟨fun hs => List.mem_cons_of_mem _ (this.1 hs),
              fun hs => (this.2 hs).imp (fun v3 hv3 =>
                ⟨hv3.1, List.mem_cons_of_mem _ hv3.2⟩)⟩

/-- Every matched commitment file of a successful squeeze run has its
squeezed content in the result. -/
theorem squeezeLoop_mem (inp : SqueezeInput) (fs : List CommFile)
    (outs : List (String × List (List Nat × List Nat))) (obs : List String)
    (h : squeezeLoop inp fs = .ok (outs, obs)) (cf : CommFile) (hcf : cf ∈ fs)
    (hm : hasMatch inp cf = true) :
    ∃ out, squeezePairs (inp.vt cf.startTxNum cf.endTxNum) cf.pairs = .ok out
      ∧ (cf.path, out) ∈ outs := by
  induction fs generalizing outs obs with
  | nil => simp at hcf
  | cons f rest ih =>
    simp only [squeezeLoop] at h
    by_cases hmf : hasMatch inp f = true
    · rw [hmf] at h
      simp only [Bool.not_true, Bool.false_eq_true, if_false] at h
      cases hp : squeezePairs (inp.vt f.startTxNum f.endTxNum) f.pairs with
      | error e => rw [hp] at h; exact absurd h (by simp)
      | ok out0 =>
        rw [hp] at h
        cases hw : inp.writeErr f.path with
        | some e => rw [hw] at h; exact absurd h (by simp)
        | none =>
          rw [hw] at h
          cases hr : squeezeLoop inp rest with
          | error e => rw [hr] at h; exact absurd h (by simp)
          | ok r =>
            rw [hr] at h
            have houts : outs = (f.path, out0) :: r.1 := by
              cases h; rfl
            subst houts
            rcases List.mem_cons.1 hcf with heq | htail
            · subst heq
              exact ⟨out0, hp, List.mem_cons_self _ _⟩
            · obtain ⟨out, hout, hmem⟩ := ih r.1 r.2 (by rw [hr]) htail
              exact ⟨out, hout, List.mem_cons_of_mem _ hmem⟩
    · have hmf2 : hasMatch inp f = false := by
        cases hq : hasMatch inp f with
        | false => rfl
        | true => exact absurd hq hmf
      rw [hmf2] at h
      simp only [Bool.not_false, if_true] at h
      rcases List.mem_cons.1 hcf with heq | htail
      · subst heq; exact absurd hm hmf
      · exact ih outs obs h htail

/-- C5: in every `SqueezeCommitmentFiles` run, each key/value pair of each
processed (range-matched) commitment file is value-transformed except the
reserved `keyCommitmentState` pair, which is copied unchanged; and on any
transform or write failure the function returns the error with no obsolete
original or index artifact removed and no squeezed file renamed over an
original, leaving the complete original file set on disk. -/
theorem C5_Squeeze_sentinel_atomicity (inp : SqueezeInput) :
    (∀ e, (SqueezeCommitmentFiles inp).err = some e →
      (SqueezeCommitmentFiles inp).removed = []
      ∧ (SqueezeCommitmentFiles inp).renamedOver = [])
    ∧ ((SqueezeCommitmentFiles inp).err = none →
      ∀ cf ∈ inp.commitFiles, hasMatch inp cf = true →
      ∃ out, (cf.path, out) ∈ (SqueezeCommitmentFiles inp).outputs
        ∧ ∀ k v, (some k, v) ∈ cf.pairs →
          ((k = keyCommitmentState → (k, v) ∈ out)
            ∧ (k ≠ keyCommitmentState →
                ∃ v2, inp.vt cf.startTxNum cf.endTxNum v = .ok v2
                  ∧ (k, v2) ∈ out))) := by
  cases hloop : squeezeLoop inp inp.commitFiles with
  | error e0 =>
    constructor
    · intro e h
      simp [SqueezeCommitmentFiles, hloop]
    · intro h
      simp [SqueezeCommitmentFiles, hloop] at h
  | ok r =>
    constructor
    · intro e h
      simp [SqueezeCommitmentFiles, hloop] at h
    · intro h cf hcf hm
      obtain ⟨out, hout, hmem⟩ := squeezeLoop_mem inp inp.commitFiles r.1 r.2
        (by rw [hloop]) cf hcf hm
      refine ⟨out, by simpa [SqueezeCommitmentFiles, hloop] using hmem, ?_⟩
      exact squeezePairs_mem _ _ _ hout

/-- A concrete squeeze input: one commitment file whose range matches the
account and storage files, holding the sentinel pair and one ordinary pair;
the transform appends a marker byte. -/
def c5Input : SqueezeInput where
  commitFiles := [⟨"c.kv", 0, 16, [(some keyCommitmentState, [1]), (some [7], [2])]⟩]
  accountRanges := [(0, 16)]
  storageRanges := [(0, 16)]
  vt := fun _ _ v => .ok (v ++ [9])
  writeErr := fun _ => none

/-- C5 witness: on the concrete input the run succeeds, the sentinel pair
is copied unchanged and the ordinary pair is transformed. -/
theorem C5_Squeeze_sentinel_atomicity_witness :
    (SqueezeCommitmentFiles c5Input).err = none
    ∧ ∃ out, ("c.kv", out) ∈ (SqueezeCommitmentFiles c5Input).outputs
      ∧ (keyCommitmentState, [1]) ∈ out ∧ ([7], [2, 9]) ∈ out := by
  refine ⟨rfl, ?_⟩
  obtain ⟨out, hmem, hall⟩ := (C5_Squeeze_sentinel_atomicity c5Input).2 rfl
    ⟨"c.kv", 0, 16, [(some keyCommitmentState, [1]), (some [7], [2])]⟩
    (by simp [c5Input]) (by decide)
  refine ⟨out, hmem, (hall keyCommitmentState [1] (by simp)).1 rfl, ?_⟩
  have h7 := (hall [7] [2] (by simp)).2 (by decide)
  obtain ⟨v2, hv2, hmem2⟩ := h7
  have hv29 : [2, 9] = v2 := by
    simpa [c5Input] using hv2
  rwa [← hv29] at hmem2

/-- C2 counterexample: called with `limit = 0` on a state with prunable
data, `Prune` invokes the component prunes with key bound
`MaxUint64 = 2^64 - 1`, not with the caller's `limit = 0` — so the claim's
"every per-domain and per-index prune is invoked with ... key bound
`limit`" fails at this input. -/
theorem C2_Prune_limit_counterexample :
    (aggPrune c2State 0).invocations.head? = some (0, 16, 2 ^ 64 - 1)
    ∧ (2 ^ 64 - 1 : Nat) ≠ 0
    ∧ (aggPrune c2State 0).result = .ok (some ()) := by
  refine ⟨?_, by norm_num, ?_⟩ <;> rfl

/-- C2 (amended): `Prune`'s upper boundary is the minimax visible-file end
txNum of the four domains; with `txTo = 0` or nothing prunable it returns
`(nil, nil)` invoking no component; every component prune is invoked over
`[0, txTo)` with key bound `limit` when `limit > 0` (and `MaxUint64` when
`limit = 0`); and — assuming each component prune only removes rows inside
the range it is given, per the spec's component contracts — no row with
txNum ≥ the minimax txNum is removed. -/
theorem C2_Prune_bounds (st : AggPruneView) (limit : Nat)
    (hmm : st.visibleFilesMinimaxTxNum = minimaxTxNumInDomainFiles st)
    (hd : ∀ dom step f t l rows x,
      (st.d dom).prune step f t l = .ok rows → x ∈ rows → f ≤ x ∧ x < t)
    (hii : ∀ pos f t l rows x,
      (st.iis pos).prune f t l = .ok rows → x ∈ rows → f ≤ x ∧ x < t)
    (hap : ∀ c ∈ st.appendable, ∀ f t l rows x,
      c f t l = .ok rows → x ∈ rows → f ≤ x ∧ x < t) :
    ((st.visibleFilesMinimaxTxNum = 0 ∨ CanPrune st st.visibleFilesMinimaxTxNum = false) →
      aggPrune st limit = ⟨.ok none, [], []⟩)
    ∧ (0 < limit → ∀ inv ∈ (aggPrune st limit).invocations,
        inv = (0, minimaxTxNumInDomainFiles st, limit))
    ∧ (limit = 0 → ∀ inv ∈ (aggPrune st limit).invocations,
        inv = (0, minimaxTxNumInDomainFiles st, 2 ^ 64 - 1))
    ∧ (∀ x ∈ (aggPrune st limit).removed, x < minimaxTxNumInDomainFiles st) := by
  have hcomps : ∀ step f t l, ∀ c ∈ pruneComponents st step,
      ∀ rows x, c f t l = .ok rows → x ∈ rows → f ≤ x ∧ x < t := by
    intro step f t l c hc rows x hok hx
    simp only [pruneComponents, List.mem_append, List.mem_cons,
      List.mem_singleton] at hc
    rcases hc with ((h | h | h | h | h | h | h | h | h) | h)
    · exact hd .accounts step f t l rows x (h ▸ hok) hx
    · exact hd .storage step f t l rows x (h ▸ hok) hx
    · exact hd .code step f t l rows x (h ▸ hok) hx
    · exact hd .commitment step f t l rows x (h ▸ hok) hx
    · exact hii .logAddrIdxPos f t l rows x (h ▸ hok) hx
    · exact hii .logTopicIdxPos f t l rows x (h ▸ hok) hx
    · exact hii .tracesFromIdxPos f t l rows x (h ▸ hok) hx
    · exact hii .tracesToIdxPos f t l rows x (h ▸ hok) hx
    · simp at h
    · exact hap c h f t l rows x hok hx
  refine ⟨?_, ?_, ?_, ?_⟩
  · rintro (h | h)
    · simp [aggPrune, h]
    · simp [aggPrune, h]
  · intro hpos inv hinv
    by_cases hg : st.visibleFilesMinimaxTxNum = 0 ∨
        CanPrune st st.visibleFilesMinimaxTxNum = false
    · rcases hg with h | h <;> simp [aggPrune, h] at hinv
    · push_neg at hg
      have h2 : CanPrune st st.visibleFilesMinimaxTxNum = true := by
        cases h : CanPrune st st.visibleFilesMinimaxTxNum with
        | false => exact absurd h hg.2
        | true => rfl
      have hlz : ¬ limit = 0 := by omega
      simp [aggPrune, h2, Ne.symm hg.1, hlz] at hinv
      have := runPrunes_invocations _ 0 st.visibleFilesMinimaxTxNum limit inv hinv
      rw [this, hmm]
  · intro hzero inv hinv
    subst hzero
    by_cases hg : st.visibleFilesMinimaxTxNum = 0 ∨
        CanPrune st st.visibleFilesMinimaxTxNum = false
    · rcases hg with h | h <;> simp [aggPrune, h] at hinv
    · push_neg at hg
      have h2 : CanPrune st st.visibleFilesMinimaxTxNum = true := by
        cases h : CanPrune st st.visibleFilesMinimaxTxNum with
        | false => exact absurd h hg.2
        | true => rfl
      simp [aggPrune, h2, Ne.symm hg.1] at hinv
      have := runPrunes_invocations _ 0 st.visibleFilesMinimaxTxNum
        18446744073709551615 inv hinv
      rw [this, hmm]
      norm_num
  · intro x hx
    by_cases hg : st.visibleFilesMinimaxTxNum = 0 ∨
        CanPrune st st.visibleFilesMinimaxTxNum = false
    · rcases hg with h | h <;> simp [aggPrune, h] at hx
    · push_neg at hg
      have h2 : CanPrune st st.visibleFilesMinimaxTxNum = true := by
        cases h : CanPrune st st.visibleFilesMinimaxTxNum with
        | false => exact absurd h hg.2
        | true => rfl
      simp [aggPrune, h2, Ne.symm hg.1] at hx
      have := runPrunes_removed _ 0 st.visibleFilesMinimaxTxNum _
        (hcomps _ 0 st.visibleFilesMinimaxTxNum _) x hx
      rw [← hmm]
      exact this.2

/-- C2 witness: the amended theorem applied to a concrete prunable state
with `limit = 5`. -/
theorem C2_Prune_bounds_witness :
    (∀ inv ∈ (aggPrune c2State 5).invocations,
      inv = (0, minimaxTxNumInDomainFiles c2State, 5))
    ∧ (∀ x ∈ (aggPrune c2State 5).removed, x < minimaxTxNumInDomainFiles c2State) := by
  have hd : ∀ dom step f t l rows x,
      (c2State.d dom).prune step f t l = .ok rows → x ∈ rows → f ≤ x ∧ x < t := by
    intro dom step f t l rows x hok hx
    simp [c2State] at hok
    subst hok
    simp at hx
  have hii : ∀ pos f t l rows x,
      (c2State.iis pos).prune f t l = .ok rows → x ∈ rows → f ≤ x ∧ x < t := by
    intro pos f t l rows x hok hx
    simp [c2State] at hok
    subst hok
    simp at hx
  have hap : ∀ c ∈ c2State.appendable, ∀ f t l rows x,
      c f t l = .ok rows → x ∈ rows → f ≤ x ∧ x < t := by
    intro c hc
    simp [c2State] at hc
  have h := C2_Prune_bounds c2State 5 rfl hd hii hap
  exact ⟨h.2.1 (by norm_num), h.2.2.2⟩

/-- C9: `IndexRange` answers `kv.CommitmentHistoryIdx` from the Storage
domain's history index, routes every other recognised name to its own
component, and returns an error (rather than panicking) on an unrecognised
name. Instantiating the result type with `Domain` itself shows the
Commitment query is answered by the Storage component, not the Commitment
one. -/
theorem C9_IndexRange_routing :
    (∀ (τ : Type) (ac : AggIdxComponents τ) (q : IdxQueryArgs),
      IndexRange ac .commitmentHistoryIdx q = .ok (ac.dHtIdxRange .storage q)
      ∧ IndexRange ac .accountsHistoryIdx q = .ok (ac.dHtIdxRange .accounts q)
      ∧ IndexRange ac .storageHistoryIdx q = .ok (ac.dHtIdxRange .storage q)
      ∧ IndexRange ac .codeHistoryIdx q = .ok (ac.dHtIdxRange .code q)
      ∧ IndexRange ac .logTopicIdx q = .ok (ac.iisIdxRange .logTopicIdxPos q)
      ∧ IndexRange ac .logAddrIdx q = .ok (ac.iisIdxRange .logAddrIdxPos q)
      ∧ IndexRange ac .tracesFromIdx q = .ok (ac.iisIdxRange .tracesFromIdxPos q)
      ∧ IndexRange ac .tracesToIdx q = .ok (ac.iisIdxRange .tracesToIdxPos q)
      ∧ ∀ s, IndexRange ac (.unknown s) q = .error ("unexpected history name: " ++ s))
    ∧ (∀ q, IndexRange ⟨fun d _ => d, fun _ _ => Domain.accounts⟩ .commitmentHistoryIdx q
        ≠ .ok Domain.commitment) := by
  refine ⟨fun τ ac q => ⟨rfl, rfl, rfl, rfl, rfl, rfl, rfl, rfl, fun s => rfl⟩, fun q => ?_⟩
  simp [IndexRange]

/-- C10: `DomainGetAsOf` reports `ok = (v != nil)`: the `found` flag is true
exactly when the resolved value is non-nil, and a successful lookup that
resolves to a nil value is reported as not found. -/
theorem C10_DomainGetAsOf_found (st : DomainReadComponents) (name : Domain)
    (key : List Nat) (ts : Nat) :
    (DomainGetAsOf st name key ts).2.1 = (DomainGetAsOf st name key ts).1.isSome
    ∧ (st.getAsOf name key ts = (none, none) →
        DomainGetAsOf st name key ts = (none, false, none)) := by
  constructor
  · rfl
  · intro h
    simp [DomainGetAsOf, h]

/-- C10 witness: a state whose lookup succeeds with a nil value, evaluated
concretely. -/
theorem C10_DomainGetAsOf_found_witness :
    ((⟨fun _ _ _ => (none, none)⟩ : DomainReadComponents).getAsOf .accounts [] 0
      = (none, none))
    ∧ DomainGetAsOf ⟨fun _ _ _ => (none, none)⟩ .accounts [] 0 = (none, false, none) :=
  ⟨rfl, (C10_DomainGetAsOf_found ⟨fun _ _ _ => (none, none)⟩ .accounts [] 0).2 rfl⟩

/-- C8: `AggregatorRoTx.Close` is idempotent, a nil receiver is a no-op, and
the first close of a live handle clears `a` and closes every present
component handle exactly once (each close counter is incremented by one,
nil domain handles are skipped). -/
theorem C8_Close_idempotent :
    (AggRoTxClose none = none)
    ∧ (∀ x, AggRoTxClose (AggRoTxClose x) = AggRoTxClose x)
    ∧ (∀ ac : AggRoTxHandles, ac.aOpen = true →
        AggRoTxClose (some ac) =
          some { aOpen := false
                 d := ac.d.map (fun h => h.map (· + 1))
                 iis := ac.iis.map (· + 1)
                 appendable := ac.appendable.map (· + 1) }) := by
  refine ⟨rfl, ?_, ?_⟩
  · intro x
    match x with
    | none => rfl
    | some ac =>
      by_cases h : ac.aOpen = false
      · simp [AggRoTxClose, h]
      · simp [AggRoTxClose, h]
  · intro ac h
    simp [AggRoTxClose, h]

/-- C8 witness: closing a live two-domain handle once, concretely. -/
theorem C8_Close_idempotent_witness :
    (AggRoTxHandles.aOpen ⟨true, [some 0, none], [0], [0]⟩ = true)
    ∧ AggRoTxClose (some ⟨true, [some 0, none], [0], [0]⟩) =
        some ⟨false, [some 1, none], [1], [1]⟩ := by
  refine ⟨rfl, ?_⟩
  have h := C8_Close_idempotent.2.2 ⟨true, [some 0, none], [0], [0]⟩ rfl
  simpa using h

end Erigon
